import Mathlib

/-!
# Verification of the `callers` package (callers.go)

Shallow embedding of the Go package `callers`, which captures the current
call stack and renders it as human-readable frames.

Modelling conventions:
* Go strings are modelled as `List Char` (`strData` injects Lean string
  literals); Go slicing `file[n+5:]` becomes `List.drop`.
* The host runtime's stack is an abstract list of resolved raw frames
  (`RuntimeFrame`); `runtime.Callers(skip, pc)` with a buffer of size
  `depth` followed by `runtime.CallersFrames` yields the window
  `(stack.drop skip).take depth`, iterated in order by the frame iterator.
* The platform path separator is a parameter `sep` (Go `filepath.Separator`);
  `filepath.ToSlash` is the identity when `sep = '/'` and otherwise replaces
  `sep` by `'/'`, exactly as in Go's implementation.
* `strings.LastIndex` is embedded denotationally: the greatest index at
  which the pattern occurs, or `-1` when it does not occur.
* Go `int` values (`skip`, `depth`, `Line`) are modelled as `Int`.
-/

/-- The underlying character list of a Lean string literal. -/
def strData (s : String) : List Char := s.data

namespace callers

/-- `Frame` contains file/function/line information for a stack frame
(struct `Frame` in callers.go, lines 35-42). -/
structure Frame where
  File : List Char
  Line : Int
  Function : List Char
deriving DecidableEq, BEq, Repr

/-- `func (f *Frame) String() string` (callers.go lines 45-47):
`fmt.Sprintf("File: %s Line: %d Function: %s", f.File, f.Line, f.Function)`. -/
def Frame.String (f : Frame) : List Char :=
  strData "File: " ++ f.File ++ strData " Line: " ++ strData (toString f.Line)
    ++ strData " Function: " ++ f.Function

/-- `func String(trace []*Frame, indent string) string` (callers.go lines
51-58): a buffer loop writing, per frame, the indent then the frame's
`String()` representation then a newline (`fmt.Fprint` / `fmt.Fprintln`). -/
def String (trace : List Frame) (indent : List Char) : List Char :=
  trace.foldl (fun buf f => buf ++ indent ++ Frame.String f ++ ['\n']) []

/-- One resolved frame as yielded by `runtime.CallersFrames`'s iterator:
the pre-normalization file path together with line and function. -/
structure RuntimeFrame where
  File : List Char
  Line : Int
  Function : List Char
deriving DecidableEq, BEq, Repr

/-- `filepath.ToSlash`: the identity when the platform separator is `'/'`,
otherwise every separator byte is replaced by `'/'`
(`strings.ReplaceAll(path, string(Separator), "/")` for a one-byte separator). -/
def toSlash (sep : Char) (path : List Char) : List Char :=
  if sep = '/' then path else path.map (fun c => if c = sep then '/' else c)

/-- `sub` occurs in `s` at index `i` (the substring of `s` starting at `i`
begins with `sub`). -/
def occursAt (s sub : List Char) (i : Nat) : Bool :=
  sub.isPrefixOf (s.drop i)

/-- Greatest `i ≤ n` with `p i = true`, scanning downward from `n`. -/
def lastFound (p : Nat → Bool) : Nat → Option Nat
  | 0 => if p 0 then some 0 else none
  | n + 1 => if p (n + 1) then some (n + 1) else lastFound p n

/-- `strings.LastIndex(s, sub)`: the index of the last occurrence of `sub`
in `s`, or `-1` if `sub` is not present. -/
def lastIndex (s sub : List Char) : Int :=
  match lastFound (occursAt s sub) s.length with
  | some i => (i : Int)
  | none => -1

/-- `filepath.Base` for slash-separated paths (the Unix implementation):
`""` gives `"."`; trailing slashes are stripped; a path of only slashes
gives `"/"`; otherwise the part after the last slash. -/
def baseSlash (path : List Char) : List Char :=
  if path = [] then ['.']
  else
    let p := (path.reverse.dropWhile (fun c => c = '/')).reverse
    if p = [] then ['/']
    else (p.reverse.takeWhile (fun c => c != '/')).reverse

/-- The literal pattern `"/src/"`. -/
def srcPat : List Char := strData "/src/"

/-- File-path normalization performed on each captured frame (callers.go
lines 82-88): convert to slashes; if the last occurrence of `"/src/"` is at
a strictly positive index `n`, keep `file[n+5:]`; otherwise keep
`filepath.Base(file)`. -/
def normalizeFile (sep : Char) (path : List Char) : List Char :=
  let file := toSlash sep path
  let n := lastIndex file srcPat
  if n > 0 then file.drop (n.toNat + 5) else baseSlash file

/-- `func Callers(skip, depth int) []*Frame` (callers.go lines 64-94):
negative `skip` is clamped to 0, non-positive `depth` defaults to 10; the
runtime yields the window of up to `depth` resolved frames starting `skip`
frames up the abstract stack; each is recorded with its line and function
verbatim and its file path normalized. -/
def Callers (sep : Char) (stack : List RuntimeFrame) (skip depth : Int) :
    List Frame :=
  let skip := if skip < 0 then 0 else skip
  let depth := if depth ≤ 0 then 10 else depth
  ((stack.drop skip.toNat).take depth.toNat).map
    (fun f => { File := normalizeFile sep f.File
                Line := f.Line
                Function := f.Function })

/-- A concrete three-frame runtime stack used for concrete evaluations. -/
def stackEx : List RuntimeFrame :=
  [ { File := strData "a.go", Line := 1, Function := strData "fa" }
  , { File := strData "b.go", Line := 2, Function := strData "fb" }
  , { File := strData "c.go", Line := 3, Function := strData "fc" } ]

/-! ### Helper lemmas -/

/-- A successful downward scan returns an index where the predicate holds,
within the scanned range. -/
lemma lastFound_some_spec (p : Nat → Bool) :
    ∀ n i, lastFound p n = some i → p i = true ∧ i ≤ n := by
  intro n
  induction n with
  | zero =>
    intro i h
    by_cases h0 : p 0 = true
    · simp only [lastFound, h0, if_true, Option.some.injEq] at h
      exact h ▸ ⟨h0, Nat.le_refl 0⟩
    · simp only [lastFound, h0, if_false, Bool.false_eq_true] at h
      exact Option.noConfusion h
  | succ n ih =>
    intro i h
    by_cases hs : p (n + 1) = true
    · simp only [lastFound, hs, if_true, Option.some.injEq] at h
      exact h ▸ ⟨hs, Nat.le_refl _⟩
    · simp only [lastFound, hs, if_false, Bool.false_eq_true] at h
      obtain ⟨h1, h2⟩ := ih i h
      exact ⟨h1, Nat.le_succ_of_le h2⟩

/-- The downward scan finds exactly the greatest index at which the
predicate holds. -/
lemma lastFound_eq_some (p : Nat → Bool) (i : Nat) :
    ∀ n, i ≤ n → p i = true → (∀ j, j ≤ n → i < j → p j = false) →
      lastFound p n = some i := by
  intro n
  induction n with
  | zero =>
    intro hle hp _
    have : i = 0 := Nat.le_zero.mp hle
    subst this
    simp [lastFound, hp]
  | succ n ih =>
    intro hle hp hmax
    by_cases hi : i = n + 1
    · subst hi
      simp [lastFound, hp]
    · have hfalse : p (n + 1) = false := hmax (n + 1) (Nat.le_refl _) (by omega)
      simp only [lastFound, hfalse, if_false, Bool.false_eq_true]
      exact ih (by omega) hp (fun j hj hij => hmax j (by omega) hij)

/-- Running the formatter's buffer loop from a non-empty buffer prepends
that buffer to the result of running it from the empty buffer. -/
lemma String_foldl_shift (indent : List Char) (trace : List Frame) (buf : List Char) :
    trace.foldl (fun b f => b ++ indent ++ Frame.String f ++ ['\n']) buf
      = buf ++ trace.foldl (fun b f => b ++ indent ++ Frame.String f ++ ['\n']) [] := by
  induction trace generalizing buf with
  | nil => simp
  | cons f rest ih =>
    simp only [List.foldl_cons]
    rw [ih (buf ++ indent ++ Frame.String f ++ ['\n']),
        ih ([] ++ indent ++ Frame.String f ++ ['\n'])]
    simp [List.append_assoc]

/-- Unfolding of the formatter on a non-empty trace. -/
lemma String_cons (f : Frame) (rest : List Frame) (indent : List Char) :
    String (f :: rest) indent
      = indent ++ Frame.String f ++ ['\n'] ++ String rest indent := by
  simp only [String, List.foldl_cons]
  rw [String_foldl_shift]
  simp [List.append_assoc]

/-! ### Claim theorems -/

/-- Claim C1, counterexample: the path `"/src/bar/baz.go"` contains
`"/src/"` (its last occurrence is at index 0), yet the captured frame's
`File` is the bare name `"baz.go"`, not the remainder `"bar/baz.go"` after
the last occurrence: the claim's trim rule does not hold as stated. -/
theorem C1_counterexample :
    lastIndex (strData "/src/bar/baz.go") srcPat = 0 ∧
    Callers '/' [{ File := strData "/src/bar/baz.go", Line := 3, Function := strData "f" }] 0 1
      = [{ File := strData "baz.go", Line := 3, Function := strData "f" }] ∧
    strData "baz.go" ≠ (strData "/src/bar/baz.go").drop (0 + 5) :=
  ⟨by decide, by decide, by decide⟩

/-- Claim C1 (amended): after slash conversion, if the last occurrence of
`"/src/"` in the converted path is at a strictly positive index `i`, the
frame's file is the remainder of the path after that occurrence; otherwise
(no occurrence at any positive index, which covers both absence of
`"/src/"` and a last occurrence at index 0) the frame's file is the final
path component (`filepath.Base`); the examples `".../foo/src/bar/baz.ext"`
-> `"bar/baz.ext"` and `"/home/user/proj/main.ext"` -> `"main.ext"` hold. -/
theorem C1_src_trim_amended :
    (∀ (sep : Char) (path : List Char) (i : Nat),
        0 < i →
        occursAt (toSlash sep path) srcPat i = true →
        (∀ j, j ≤ (toSlash sep path).length → i < j →
          occursAt (toSlash sep path) srcPat j = false) →
        normalizeFile sep path = (toSlash sep path).drop (i + 5)) ∧
    (∀ (sep : Char) (path : List Char),
        (∀ j, j ≤ (toSlash sep path).length → 0 < j →
          occursAt (toSlash sep path) srcPat j = false) →
        normalizeFile sep path = baseSlash (toSlash sep path)) ∧
    normalizeFile '/' (strData ".../foo/src/bar/baz.ext") = strData "bar/baz.ext" ∧
    normalizeFile '/' (strData "/home/user/proj/main.ext") = strData "main.ext" := by
  refine ⟨fun sep path i hpos hocc hmax => ?_, fun sep path hno => ?_, by decide, by decide⟩
  · have hb : srcPat.length ≤ ((toSlash sep path).drop i).length :=
      (List.isPrefixOf_iff_prefix.mp hocc).length_le
    rw [List.length_drop] at hb
    have hsl : srcPat.length = 5 := rfl
    rw [hsl] at hb
    have hile : i ≤ (toSlash sep path).length := by omega
    have hlf : lastFound (occursAt (toSlash sep path) srcPat) (toSlash sep path).length
        = some i :=
      lastFound_eq_some _ i (toSlash sep path).length hile hocc hmax
    simp only [normalizeFile, lastIndex, hlf]
    rw [if_pos (by exact_mod_cast Int.natCast_pos.mpr hpos), Int.toNat_natCast]
  · cases hlf : lastFound (occursAt (toSlash sep path) srcPat) (toSlash sep path).length with
    | none =>
      simp only [normalizeFile, lastIndex, hlf]
      rw [if_neg (by omega : ¬ (-1 : Int) > 0)]
    | some i =>
      obtain ⟨h1, h2⟩ := lastFound_some_spec _ _ _ hlf
      have hi0 : i = 0 := by
        by_contra hne
        have hf := hno i h2 (Nat.pos_of_ne_zero hne)
        rw [hf] at h1
        exact Bool.noConfusion h1
      subst hi0
      simp only [normalizeFile, lastIndex, hlf]
      rw [if_neg (by omega : ¬ ((0 : Nat) : Int) > 0)]

/-- Claim C1, witness: both arms of the amended trim rule at concrete
inputs: `".../foo/src/bar/baz.ext"` (last `"/src/"` occurrence at index
7 > 0) normalizes to `"bar/baz.ext"`, and `"/home/user/proj/main.ext"`
(no `"/src/"` occurrence) normalizes to the bare name `"main.ext"`. -/
theorem C1_witness :
    normalizeFile '/' (strData ".../foo/src/bar/baz.ext") = strData "bar/baz.ext" ∧
    normalizeFile '/' (strData "/home/user/proj/main.ext") = strData "main.ext" :=
  ⟨(C1_src_trim_amended.1 '/' (strData ".../foo/src/bar/baz.ext") 7 (by decide) (by decide)
      (by decide)).trans (by decide),
   (C1_src_trim_amended.2.1 '/' (strData "/home/user/proj/main.ext") (by decide)).trans
      (by decide)⟩

/-- Claim C2, counterexample: with `depth = 0` (and a one-frame stack) the
capture returns one frame, more than `depth`: the bound "at most `depth`
frames" fails for non-positive `depth`, where the default 10 applies. -/
theorem C2_counterexample :
    ¬ ((Callers '/' [{ File := strData "a.go", Line := 1, Function := strData "main" }] 0 0).length
        ≤ 0) := by
  decide

/-- Claim C2 (amended): the capture returns at most `depth` frames when
`depth ≥ 1`, and at most 10 frames (the applied default) when `depth ≤ 0`. -/
theorem C2_length_le_amended (sep : Char) (stack : List RuntimeFrame) (skip depth : Int) :
    (Callers sep stack skip depth).length
      ≤ (if depth ≤ 0 then 10 else depth.toNat) := by
  simp only [Callers, List.length_map, List.length_take, List.length_drop]
  split_ifs <;> omega

/-- Claim C3: a negative `skip` is silently clamped to 0, so
`Callers(skip, depth)` with `skip < 0` returns exactly the frames of
`Callers(0, depth)` on the same runtime stack. -/
theorem C3_negative_skip (sep : Char) (stack : List RuntimeFrame) (skip depth : Int)
    (h : skip < 0) :
    Callers sep stack skip depth = Callers sep stack 0 depth := by
  simp only [Callers]
  rw [if_pos h, if_neg (by omega : ¬ (0 : Int) < 0)]

/-- Claim C3, witness: `Callers(-1, 3)` equals `Callers(0, 3)` on the
concrete three-frame stack. -/
theorem C3_witness :
    Callers '/' stackEx (-1) 3 = Callers '/' stackEx 0 3 :=
  C3_negative_skip '/' stackEx (-1) 3 (by decide)

/-- Claim C4: a non-positive `depth` is silently replaced by the default
10, so `Callers(skip, depth)` with `depth ≤ 0` returns exactly the frames
of `Callers(skip, 10)` on the same runtime stack. -/
theorem C4_depth_default (sep : Char) (stack : List RuntimeFrame) (skip depth : Int)
    (h : depth ≤ 0) :
    Callers sep stack skip depth = Callers sep stack skip 10 := by
  simp only [Callers]
  rw [if_pos h, if_neg (by omega : ¬ (10 : Int) ≤ 0)]

/-- Claim C4, witness: `Callers(1, 0)` equals `Callers(1, 10)` on the
concrete three-frame stack. -/
theorem C4_witness :
    Callers '/' stackEx 1 0 = Callers '/' stackEx 1 10 :=
  C4_depth_default '/' stackEx 1 0 (by decide)

/-- Claim C5: the formatter returns, per frame in sequence order, the
indent followed by the frame's rendering followed by a newline, all
concatenated; the empty trace yields the empty string (and the operation
is a total function). -/
theorem C5_format (trace : List Frame) (indent : List Char) :
    String [] indent = [] ∧
    String trace indent
      = (trace.map (fun f => indent ++ Frame.String f ++ ['\n'])).flatten := by
  refine ⟨rfl, ?_⟩
  induction trace with
  | nil => rfl
  | cons f rest ih =>
    rw [String_cons, List.map_cons, List.flatten_cons, ih]

/-- Claim C6: a frame renders exactly as
`"File: <file> Line: <line> Function: <function>"`, and the one-frame
trace `{file: "a.ext", line: 5, function: "f"}` formatted with indent
`"-> "` yields exactly `"-> File: a.ext Line: 5 Function: f\n"`. -/
theorem C6_render :
    (∀ (file fn : List Char) (line : Int),
        Frame.String { File := file, Line := line, Function := fn }
          = strData "File: " ++ file ++ strData " Line: " ++ strData (toString line)
              ++ strData " Function: " ++ fn) ∧
    Frame.String { File := strData "a.ext", Line := 5, Function := strData "f" }
      = strData "File: a.ext Line: 5 Function: f" ∧
    String [{ File := strData "a.ext", Line := 5, Function := strData "f" }] (strData "-> ")
      = strData "-> File: a.ext Line: 5 Function: f\n" :=
  ⟨fun _ _ _ => rfl, by decide, by decide⟩

/-- Claim C7: the capture is total and returns an ordinary (possibly
empty) list: its length is exactly `min` of the normalized depth and the
frames available past the normalized skip, and when the stack is
shallower than (or equal to) `skip` the result is the empty list. -/
theorem C7_total_capture (sep : Char) (stack : List RuntimeFrame) (skip depth : Int) :
    (Callers sep stack skip depth).length
      = min (if depth ≤ 0 then 10 else depth.toNat) (stack.length - skip.toNat) ∧
    (stack.length ≤ skip.toNat → Callers sep stack skip depth = []) := by
  have hlen : (Callers sep stack skip depth).length
      = min (if depth ≤ 0 then 10 else depth.toNat) (stack.length - skip.toNat) := by
    simp only [Callers, List.length_map, List.length_take, List.length_drop]
    congr 1
    · split_ifs <;> rfl
    · congr 1
      split_ifs with h
      · exact (Int.toNat_of_nonpos (le_of_lt h)).symm
      · rfl
  refine ⟨hlen, fun h => ?_⟩
  have h0 : stack.length - skip.toNat = 0 := by omega
  rw [← List.length_eq_zero, hlen, h0, Nat.min_zero]

/-- Claim C7, witness: skipping past the whole concrete stack yields the
empty capture. -/
theorem C7_witness :
    Callers '/' stackEx 5 3 = [] :=
  (C7_total_capture '/' stackEx 5 3).2 (by decide)

/-- Claim C8, counterexample: on the three-frame stack with `depth = 2`,
`Callers(1, 2)` picks up an extra frame at the bottom, so it is neither
the tail of `Callers(0, 2)` nor a suffix of it. -/
theorem C8_counterexample :
    ¬ (Callers '/' stackEx (0 + 1) 2 = (Callers '/' stackEx 0 2).tail) ∧
    (Callers '/' stackEx (0 + 1) 2).isSuffixOf (Callers '/' stackEx 0 2) = false :=
  ⟨by decide, by decide⟩

/-- Claim C8 (amended): for `skip ≥ 0` and `depth ≥ 1`, when the stack has
more than `skip` frames and at most `skip + depth` frames (so the capture
window reaches the bottom of the stack), `Callers(skip+1, depth)` is
exactly `Callers(skip, depth)` with its first frame removed. -/
theorem C8_skip_shift_amended (sep : Char) (stack : List RuntimeFrame) (skip depth : Int)
    (hs : 0 ≤ skip) (hd : 0 < depth)
    (h1 : skip.toNat < stack.length) (h2 : stack.length ≤ skip.toNat + depth.toNat) :
    Callers sep stack (skip + 1) depth = (Callers sep stack skip depth).tail := by
  have hns : ¬ skip < 0 := by omega
  have hns1 : ¬ skip + 1 < 0 := by omega
  have hnd : ¬ depth ≤ 0 := by omega
  simp only [Callers, if_neg hns, if_neg hns1, if_neg hnd]
  have ht1 : (skip + 1).toNat = skip.toNat + 1 := by omega
  rw [ht1]
  have hlen1 : (stack.drop skip.toNat).length ≤ depth.toNat := by
    rw [List.length_drop]; omega
  have hlen2 : (stack.drop (skip.toNat + 1)).length ≤ depth.toNat := by
    rw [List.length_drop]; omega
  rw [List.take_of_length_le hlen1, List.take_of_length_le hlen2,
      ← List.map_tail, List.tail_drop]

/-- Claim C8, witness: on the three-frame stack with `depth = 3`,
`Callers(0+1, 3)` is the tail of `Callers(0, 3)`. -/
theorem C8_witness :
    Callers '/' stackEx (0 + 1) 3 = (Callers '/' stackEx 0 3).tail :=
  C8_skip_shift_amended '/' stackEx 0 3 (by decide) (by decide) (by decide) (by decide)

/-- Claim C9: when the slash-converted path's last occurrence of `"/src/"`
is at index 0 (it begins with `"/src/"` and has no later occurrence), the
frame's file is the bare file name (`filepath.Base`), because the trim
branch requires a strictly positive index. -/
theorem C9_src_at_index_zero (sep : Char) (path : List Char)
    (h0 : occursAt (toSlash sep path) srcPat 0 = true)
    (hmax : ∀ j, j ≤ (toSlash sep path).length → 0 < j →
      occursAt (toSlash sep path) srcPat j = false) :
    normalizeFile sep path = baseSlash (toSlash sep path) := by
  have hlf : lastFound (occursAt (toSlash sep path) srcPat) (toSlash sep path).length
      = some 0 :=
    lastFound_eq_some _ 0 (toSlash sep path).length (Nat.zero_le _) h0 hmax
  simp only [normalizeFile, lastIndex, hlf]
  rw [if_neg (by omega : ¬ ((0 : Nat) : Int) > 0)]

/-- Claim C9, witness: `"/src/bar/baz.go"` (last occurrence of `"/src/"`
at index 0) normalizes to the bare name `"baz.go"`. -/
theorem C9_witness :
    normalizeFile '/' (strData "/src/bar/baz.go") = strData "baz.go" :=
  (C9_src_at_index_zero '/' (strData "/src/bar/baz.go") (by decide) (by decide)).trans
    (by decide)

/-- Claim C10: the formatter is a monoid homomorphism from frame
sequences to strings: it maps concatenation of traces to concatenation of
outputs and the empty trace to the empty string (determinism is inherent:
it is a function of its two arguments). -/
theorem C10_hom (a b : List Frame) (indent : List Char) :
    String (a ++ b) indent = String a indent ++ String b indent ∧
    String [] indent = [] := by
  refine ⟨?_, rfl⟩
  simp only [String, List.foldl_append]
  rw [String_foldl_shift]

end callers
